import Mathlib

/-!
# Verification of the handjie response parser and prompt scheduler

This development gives a shallow embedding of the directive response parser
(`src/agent/response-parser.ts`) and the FIFO prompt scheduler
(`src/agent/scheduler.ts`) of the handjie repository, and proves the
specification claims about them.

Strings are modelled as `List Char`.  The `Scanner`, its primitives, the
argument tokenizer `parseArguments` and the single-call `ResponseParser.parse`
are translated directly from `src/agent/response-parser.ts`.  The repository's
latest multi-directive parser (whose tests and caller are in the repository,
but whose implementation file is not) is modelled from the specification in
the `MultiResponseParser` namespace; each such definition is marked
`Modelled from the spec:`.
-/

namespace Handjie

/-- The backtick character (code point 96), used as a string delimiter by the
argument tokenizer. -/
def backtickChar : Char := Char.ofNat 96

/-- The single-quote character (code point 39), used as a string delimiter by
the argument tokenizer. -/
def singleQuoteChar : Char := Char.ofNat 39

/-- Predicate `startsWithChars p cs`: it is true iff `p` is an initial segment of `cs`
(JavaScript `String.startsWith`). -/
def startsWithChars : List Char → List Char → Bool
  | [], _ => true
  | _ :: _, [] => false
  | p :: ps, c :: cs => p == c && startsWithChars ps cs

/-- Predicate `containsSub p cs`: it is true iff `p` occurs as a contiguous substring of
`cs` (JavaScript `String.includes`). -/
def containsSub (p : List Char) : List Char → Bool
  | [] => startsWithChars p []
  | c :: cs => startsWithChars p (c :: cs) || containsSub p cs

/-- Predicate `endsWithChars p cs`: it is true iff `p` is a final segment of `cs`
(JavaScript `String.endsWith`). -/
def endsWithChars (p cs : List Char) : Bool :=
  startsWithChars p.reverse cs.reverse

/-- Split a character list at newline characters; the result always has one
more element than the number of newlines (JavaScript `String.split("\n")`). -/
def splitLines : List Char → List (List Char)
  | [] => [[]]
  | c :: cs =>
    if c = '\n' then [] :: splitLines cs
    else
      match splitLines cs with
      | [] => [[c]]
      | l :: ls => (c :: l) :: ls

/-- Join lines with newline separators; left inverse of `splitLines`. -/
def joinLines : List (List Char) → List Char
  | [] => []
  | [l] => l
  | l :: ls => l ++ '\n' :: joinLines ls

/-- Cursor over the raw response string; translated from class `Scanner` in
`src/agent/response-parser.ts` (lines 104-164).  The mutable `position` field
becomes explicit state passing. -/
structure Scanner where
  input : List Char
  position : Nat
deriving Repr, DecidableEq

namespace Scanner

/-- Method `Scanner.eof` (source line 143): true once the cursor is past the end. -/
def eof (s : Scanner) : Bool := s.input.length ≤ s.position

/-- Method `Scanner.peek` (source line 136): the current character, or `none` at the
end of input (the source returns the empty string sentinel). -/
def peek (s : Scanner) : Option Char := s.input.get? s.position

/-- Method `Scanner.next` (source line 113): consume and return the current
character; at the end of input return the empty sentinel and do not move. -/
def next (s : Scanner) : Option Char × Scanner :=
  match s.input.get? s.position with
  | none => (none, s)
  | some c => (some c, { s with position := s.position + 1 })

/-- The state after `Scanner.next`, for call sites that discard the returned
character. -/
def advance (s : Scanner) : Scanner := (next s).2

/-- Method `Scanner.hasPrefix` (source line 120): does the literal match at the
cursor, without consuming. -/
def hasPrefix (s : Scanner) (p : List Char) : Bool :=
  startsWithChars p (s.input.drop s.position)

/-- Helper for `nextUntil`: over the remaining characters, the consumed
result and how far the cursor advances.  Each loop iteration of the source
either consumes one character into the result, or unconsumes the delimiter
and exits. -/
def nextUntilGo (delimiters : List Char) : List Char → List Char × Nat
  | [] => ([], 0)
  | c :: cs =>
    if delimiters.contains c then ([], 0)
    else
      let (r, n) := nextUntilGo delimiters cs
      (c :: r, n + 1)

/-- Method `Scanner.nextUntil` (source line 123): consume and return characters up
to (not including) the first delimiter, leaving the cursor at the
delimiter (or at the end of input when no delimiter occurs). -/
def nextUntil (s : Scanner) (delimiters : List Char) : List Char × Scanner :=
  let (r, n) := nextUntilGo delimiters (s.input.drop s.position)
  (r, { s with position := s.position + n })

/-- Helper for `skipWhitespace`: how many leading characters have code point
at most 32. -/
def skipWsGo : List Char → Nat
  | [] => 0
  | c :: cs => if c.toNat ≤ 32 then skipWsGo cs + 1 else 0

/-- Method `Scanner.skipWhitespace` (source line 147): advance the cursor past
characters whose code point is at most 32. -/
def skipWhitespace (s : Scanner) : Scanner :=
  { s with position := s.position + skipWsGo (s.input.drop s.position) }

/-- Method `Scanner.slice` (source line 153): JavaScript `input.slice(start, end)`. -/
def slice (s : Scanner) (a b : Nat) : List Char :=
  (s.input.drop a).take (b - a)

/-- Method `Scanner.match` (source line 157, renamed since `match` is reserved):
consume the expected character, or log and stay put when it is not there. -/
def matchChar (s : Scanner) (expected : Char) : Scanner :=
  if peek s == some expected then advance s else s

end Scanner

/-- The loop scanning a double-quoted span inside an argument list
(`parseArguments`, source lines 200-211): consume characters until the
closing double quote, a backslash causing the following character to be
scanned over; stop silently at end of input.  The opening quote has already
been consumed by the caller.  Fuel-indexed; `none` means out of fuel. -/
def scanDoubleQuote : Nat → Scanner → Option Scanner
  | 0, _ => none
  | n + 1, s =>
    if Scanner.eof s then some s
    else
      match Scanner.next s with
      | (some c, s1) =>
        if c == '"' then some s1
        else if c == '\\' then scanDoubleQuote n (Scanner.advance s1)
        else scanDoubleQuote n s1
      | (none, s1) => some s1

/-- The loop scanning a backtick-quoted span (`parseArguments`, source lines
212-223); same structure as the double-quote loop with the backtick
delimiter. -/
def scanBacktick : Nat → Scanner → Option Scanner
  | 0, _ => none
  | n + 1, s =>
    if Scanner.eof s then some s
    else
      match Scanner.next s with
      | (some c, s1) =>
        if c == backtickChar then some s1
        else if c == '\\' then scanBacktick n (Scanner.advance s1)
        else scanBacktick n s1
      | (none, s1) => some s1

/-- The loop scanning a single-quoted span (`parseArguments`, source lines
224-234); same structure as the double-quote loop with the single-quote
delimiter. -/
def scanSingleQuote : Nat → Scanner → Option Scanner
  | 0, _ => none
  | n + 1, s =>
    if Scanner.eof s then some s
    else
      match Scanner.next s with
      | (some c, s1) =>
        if c == singleQuoteChar then some s1
        else if c == '\\' then scanSingleQuote n (Scanner.advance s1)
        else scanSingleQuote n s1
      | (none, s1) => some s1

/-- The three quote-scanning loops are instances of one generic loop over the
closing delimiter; used to state that the three quote kinds are tokenized
identically. -/
def scanQuoteGeneric (q : Char) : Nat → Scanner → Option Scanner
  | 0, _ => none
  | n + 1, s =>
    if Scanner.eof s then some s
    else
      match Scanner.next s with
      | (some c, s1) =>
        if c == q then some s1
        else if c == '\\' then scanQuoteGeneric q n (Scanner.advance s1)
        else scanQuoteGeneric q n s1
      | (none, s1) => some s1

/-- The main loop of `parseArguments` (source lines 179-238).  State: the
accumulated arguments (`args`), the start offset of the current argument
(`argStart`), the nested-parenthesis depth, and the scanner.  The returned
`Bool` records which exit was taken: `true` for the close-parenthesis break,
`false` for the end-of-input branch, which logs an error and discards the
accumulated arguments.  Fuel-indexed; `none` means out of fuel. -/
def parseArgsLoop :
    List (List Char) → Nat → Nat → Nat → Scanner →
      Option (List (List Char) × Scanner × Bool)
  | _, _, _, 0, _ => none
  | acc, argStart, depth, n + 1, s0 =>
    let s := Scanner.skipWhitespace s0
    if Scanner.eof s then some ([], s, false)
    else if Scanner.peek s == some ')' then
      if depth == 0 then
        some (acc ++ [Scanner.slice s argStart s.position], s, true)
      else
        parseArgsLoop acc argStart (depth - 1) n (Scanner.advance s)
    else if Scanner.peek s == some '(' then
      parseArgsLoop acc argStart (depth + 1) n (Scanner.advance s)
    else if Scanner.peek s == some ',' && depth == 0 then
      let s1 := Scanner.skipWhitespace (Scanner.advance s)
      parseArgsLoop (acc ++ [Scanner.slice s argStart s.position]) s1.position depth n s1
    else if Scanner.peek s == some '"' then
      match scanDoubleQuote n (Scanner.advance s) with
      | none => none
      | some s1 => parseArgsLoop acc argStart depth n s1
    else if Scanner.peek s == some backtickChar then
      match scanBacktick n (Scanner.advance s) with
      | none => none
      | some s1 => parseArgsLoop acc argStart depth n s1
    else if Scanner.peek s == some singleQuoteChar then
      match scanSingleQuote n (Scanner.advance s) with
      | none => none
      | some s1 => parseArgsLoop acc argStart depth n s1
    else
      parseArgsLoop acc argStart depth n (Scanner.advance s)

/-- Function `parseArguments` (source lines 166-241): expects the cursor at `(`;
consumes the opening parenthesis, handles the empty list, then runs the
argument loop.  The final close parenthesis of a non-empty list is left
unconsumed, exactly as in the source.  Fuel-indexed; `none` means out of
fuel. -/
def parseArguments (fuel : Nat) (s0 : Scanner) :
    Option (List (List Char) × Scanner × Bool) :=
  let s1 := Scanner.skipWhitespace s0
  let s2 := Scanner.matchChar s1 '('
  let s3 := Scanner.skipWhitespace s2
  if Scanner.peek s3 == some ')' then some ([], Scanner.advance s3, true)
  else parseArgsLoop [] s3.position 0 fuel s3

/-- The correlation-id split of the full tool identifier
(`ResponseParser.parse`, source lines 42-51): the identifier is split on the
colon; exactly two parts yield the correlation id and the name, any other
split count leaves the whole identifier as the name with correlation id
`"default"`. -/
def extractCorrelation (fullToolIdentifier : List Char) : List Char × List Char :=
  match fullToolIdentifier.splitOn ':' with
  | [p0, p1] => (p0, p1)
  | _ => ("default".toList, fullToolIdentifier)

/-- Type `FunctionCall` (source lines 97-102).  The source computes the
`arguments` field by mapping the host-language `eval` over the raw argument
substrings returned by `parseArguments`; that dynamic evaluation is host
behavior outside the grammar and is treated as an opaque step, so the field
holds the raw substrings here. -/
structure FunctionCall where
  tool : List Char
  correlationId : List Char
  function : List Char
  arguments : List (List Char)
deriving Repr, DecidableEq

/-- Type `ResponseMessage` (source lines 88-92). -/
structure ResponseMessage where
  done : Bool
  content : List Char
  function_call : Option FunctionCall
deriving Repr, DecidableEq

namespace ResponseParser

/-- The `while` loop of the single-call `ResponseParser.parse` (source lines
25-79), fuel-indexed; the raw response is `sc.input` and never changes.
Returns at the first complete tool directive or done sentinel; copies over
non-directive lines; falls out at end of input with the whole raw response
as content. -/
def parseLoop : Nat → Scanner → Option ResponseMessage
  | 0, _ => none
  | n + 1, sc =>
    if Scanner.eof sc then
      some { done := false, content := sc.input, function_call := none }
    else
      let s := Scanner.skipWhitespace sc
      if Scanner.hasPrefix s ("TOOL:".toList) then
        let toolStart := s.position
        let s1 : Scanner := ⟨s.input, s.position + 5⟩
        let s2 := Scanner.skipWhitespace s1
        match Scanner.nextUntil s2 ['(', ' ', '.', '\n'] with
        | (fullToolIdentifier, s3) =>
          if fullToolIdentifier == "done".toList then
            some { done := true, content := sc.input.take toolStart, function_call := none }
          else
            match extractCorrelation fullToolIdentifier with
            | (correlationId, toolName) =>
              let s4 := Scanner.skipWhitespace s3
              if Scanner.peek s4 == some '.' then
                let s5 := Scanner.advance s4
                let s6 := Scanner.skipWhitespace s5
                match Scanner.nextUntil s6 ['(', ' ', '\n'] with
                | (functionName, s7) =>
                  let s8 := Scanner.skipWhitespace s7
                  match parseArguments (s8.input.length + 1) s8 with
                  | none => none
                  | some (args, _, _) =>
                    some { done := false, content := sc.input.take toolStart,
                           function_call := some { tool := toolName,
                                                   correlationId := correlationId,
                                                   function := functionName,
                                                   arguments := args } }
              else
                parseLoop n s4
      else
        match Scanner.nextUntil s ['\n'] with
        | (_, s9) => parseLoop n (Scanner.advance s9)

/-- Method `ResponseParser.parse` (source lines 22-85): run the scanning loop from
position 0; the fuel is one more than the input length, which suffices
because every loop iteration strictly advances the cursor. -/
def parse (rawResponse : List Char) : Option ResponseMessage :=
  parseLoop (rawResponse.length + 1) ⟨rawResponse, 0⟩

end ResponseParser

namespace MultiResponseParser

/-- Modelled from the spec: `ToolCall` (spec §3).  The implementation file of
the multi-directive parser is not in the repository snapshot (only its tests
and its caller); its data model follows spec §3. -/
structure ToolCall where
  toolId : List Char
  correlationId : List Char
  functionName : List Char
  rawArgs : List (List Char)
deriving Repr, DecidableEq

/-- Modelled from the spec: `AgentCall` (spec §3). -/
structure AgentCall where
  targetAgentName : List Char
  correlationId : List Char
  message : List Char
deriving Repr, DecidableEq

/-- Modelled from the spec: `ParsedMessage` (spec §3), the result of the
multi-directive `parse`. -/
structure ParsedMessage where
  done : Bool
  content : List Char
  toolCalls : List ToolCall
  agentCalls : List AgentCall
deriving Repr, DecidableEq

/-- What one source line contributes: prose, the done sentinel, a tool call,
or an agent call; directives also carry the text following them on the same
line. -/
inductive LineDirective where
  | prose : LineDirective
  | doneSig : (trailing : List Char) → LineDirective
  | tool : ToolCall → (trailing : List Char) → LineDirective
  | agent : AgentCall → (trailing : List Char) → LineDirective
deriving Repr, DecidableEq

/-- Modelled from the spec: parsing of one `TOOL:` line (spec §4.2 and the
directive grammar of §6), built on the source-translated scanner and
tokenizer.  The identifier is read up to the first of open parenthesis,
space, dot or newline; the sentinel identifier `done` signals completion; a
missing dot or missing open parenthesis degrades the line to plain text; an
unterminated argument list is recovered by the tokenizer as an empty
argument sequence. -/
def parseToolLine (l : List Char) : LineDirective :=
  let s0 : Scanner := ⟨l, 5⟩
  let s1 := Scanner.skipWhitespace s0
  match Scanner.nextUntil s1 ['(', ' ', '.', '\n'] with
  | (ident, s2) =>
    if ident == "done".toList then
      .doneSig (l.drop s2.position)
    else
      match extractCorrelation ident with
      | (correlationId, name) =>
        let s3 := Scanner.skipWhitespace s2
        if Scanner.peek s3 == some '.' then
          let s4 := Scanner.skipWhitespace (Scanner.advance s3)
          match Scanner.nextUntil s4 ['(', ' ', '\n'] with
          | (functionName, s5) =>
            let s6 := Scanner.skipWhitespace s5
            if Scanner.peek s6 == some '(' then
              match parseArguments (l.length + 1) s6 with
              | some (args, s7, closed) =>
                let s8 := if closed && (Scanner.peek s7 == some ')') then
                    Scanner.advance s7
                  else s7
                .tool ⟨name, correlationId, functionName, args⟩ (l.drop s8.position)
              | none => .prose
            else .prose
        else .prose

/-- Modelled from the spec: scanning of the quoted message of an `AGENT:`
directive, literal-preserving (a backslash causes the following character to
be scanned over, both kept); `none` at end of input before the closing
quote (or out of fuel). -/
def scanAgentMessage : Nat → Scanner → Option (List Char × Scanner)
  | 0, _ => none
  | n + 1, s =>
    match Scanner.next s with
    | (none, _) => none
    | (some c, s1) =>
      if c == '"' then some ([], s1)
      else if c == '\\' then
        match Scanner.next s1 with
        | (none, _) => none
        | (some c2, s2) =>
          match scanAgentMessage n s2 with
          | some (m, sf) => some (c :: c2 :: m, sf)
          | none => none
      else
        match scanAgentMessage n s1 with
        | some (m, sf) => some (c :: m, sf)
        | none => none

/-- Modelled from the spec: parsing of one `AGENT:` line (spec §4.2, grammar
`AGENT:[corr:]agent_name("message")`); any failure of the grammar degrades
the line to plain text. -/
def parseAgentLine (l : List Char) : LineDirective :=
  let s0 : Scanner := ⟨l, 6⟩
  let s1 := Scanner.skipWhitespace s0
  match Scanner.nextUntil s1 ['(', ' ', '.', '\n'] with
  | (ident, s2) =>
    match extractCorrelation ident with
    | (correlationId, name) =>
      let s3 := Scanner.skipWhitespace s2
      if Scanner.peek s3 == some '(' then
        let s4 := Scanner.skipWhitespace (Scanner.advance s3)
        if Scanner.peek s4 == some '"' then
          match scanAgentMessage (l.length + 1) (Scanner.advance s4) with
          | some (message, s5) =>
            let s6 := Scanner.skipWhitespace s5
            if Scanner.peek s6 == some ')' then
              .agent ⟨name, correlationId, message⟩ (l.drop (Scanner.advance s6).position)
            else .prose
          | none => .prose
        else .prose
      else .prose

/-- Modelled from the spec: a line is a directive iff it starts with `TOOL:`
or `AGENT:` (spec §4.2/§7: a line starting with a recognized prefix that
fails the rest of the grammar is treated as plain text). -/
def classifyLine (l : List Char) : LineDirective :=
  if startsWithChars ("TOOL:".toList) l then parseToolLine l
  else if startsWithChars ("AGENT:".toList) l then parseAgentLine l
  else .prose

/-- Comma-space join of the raw argument substrings, used in the bracketed
tool-call description. -/
def commaJoin : List (List Char) → List Char
  | [] => []
  | [a] => a
  | a :: rest => a ++ ',' :: ' ' :: commaJoin rest

/-- Modelled from the spec: the bracketed tool-call description
`[Using tool.fn(arg0, arg1, ...)]` (spec §4.2). -/
def toolDescription (tc : ToolCall) : List Char :=
  "[Using ".toList ++ tc.toolId ++ '.' :: tc.functionName ++
    '(' :: commaJoin tc.rawArgs ++ ")]".toList

/-- Modelled from the spec: the bracketed delegation description (spec §4.2). -/
def agentDescription (ac : AgentCall) : List Char :=
  "[Delegating to agent ".toList ++ ac.targetAgentName ++ ": \"".toList ++
    ac.message ++ "\"]".toList

/-- Modelled from the spec: the completion description (spec §4.2). -/
def taskCompletedDescription : List Char := "[Task completed]".toList

/-- Modelled from the spec: blank-line normalization before a directive
description (spec §4.2): content already ending in two newlines is left
alone, content ending in a single newline receives one more, otherwise two
newlines are appended. -/
def ensureBlankLine (content : List Char) : List Char :=
  if endsWithChars ('\n' :: '\n' :: []) content then content
  else if endsWithChars ['\n'] content then content ++ ['\n']
  else content ++ '\n' :: '\n' :: []

/-- Accumulator of the line-by-line state machine. -/
structure ParseState where
  content : List Char
  toolCalls : List ToolCall
  agentCalls : List AgentCall
  done : Bool
  skipBlank : Bool
deriving Repr, DecidableEq

/-- Modelled from the spec: content contribution of one directive (spec
§4.2): normalize the accumulated content to end in a blank line, insert the
bracketed description, put any same-line trailing text after a forced blank
line, and separate a following line by one blank line (a blank source line
directly after the directive is absorbed into that separator, recorded by
the returned flag). -/
def emitDirective (st : ParseState) (description trailing : List Char)
    (isLast : Bool) : List Char × Bool :=
  if trailing.isEmpty then
    (ensureBlankLine st.content ++ description ++
      (if isLast then [] else '\n' :: '\n' :: []), !isLast)
  else
    (ensureBlankLine st.content ++ description ++ '\n' :: '\n' :: trailing ++
      (if isLast then [] else ['\n']), false)

/-- Modelled from the spec: the per-line step of the multi-directive parser
(spec §4.2): ordinary lines are copied verbatim with their newline, the
final line carries no trailing newline, directives accumulate into the call
lists in source order, and the done sentinel sets the completion flag while
scanning continues. -/
def processLine (l : List Char) (isLast : Bool) (st : ParseState) : ParseState :=
  match classifyLine l with
  | .tool tc trailing =>
    match emitDirective st (toolDescription tc) trailing isLast with
    | (content, flag) =>
      { st with content := content, toolCalls := st.toolCalls ++ [tc], skipBlank := flag }
  | .agent ac trailing =>
    match emitDirective st (agentDescription ac) trailing isLast with
    | (content, flag) =>
      { st with content := content, agentCalls := st.agentCalls ++ [ac], skipBlank := flag }
  | .doneSig trailing =>
    match emitDirective st taskCompletedDescription trailing isLast with
    | (content, flag) =>
      { st with content := content, done := true, skipBlank := flag }
  | .prose =>
    if st.skipBlank && l.isEmpty && !isLast then
      { st with skipBlank := false }
    else
      { st with content := st.content ++ l ++ (if isLast then [] else ['\n']),
                skipBlank := false }

/-- Fold of `processLine` over the lines of the raw response; the last line
is marked. -/
def processLines : List (List Char) → ParseState → ParseState
  | [], st => st
  | [l], st => processLine l true st
  | l :: l2 :: ls, st => processLines (l2 :: ls) (processLine l false st)

/-- The initial accumulator. -/
def initState : ParseState := ⟨[], [], [], false, false⟩

/-- The tool call contributed by one line, if any; the specification-side
view of the per-line classification, used to state that `parse` collects
exactly the well-formed tool directives in source order. -/
def lineToolCall (l : List Char) : Option ToolCall :=
  match classifyLine l with
  | .tool tc _ => some tc
  | _ => none

/-- The agent call contributed by one line, if any. -/
def lineAgentCall (l : List Char) : Option AgentCall :=
  match classifyLine l with
  | .agent ac _ => some ac
  | _ => none

/-- Whether one line is the done sentinel. -/
def isDoneLine (l : List Char) : Bool :=
  match classifyLine l with
  | .doneSig _ => true
  | _ => false

/-- Modelled from the spec: the multi-directive `parse` (spec §4.2): walk the
raw response line by line, reconstruct the human-readable content, and
accumulate the tool and agent calls in source order.  The implementation
file of this latest parser variant is absent from the repository snapshot;
only its tests and its caller remain, so the definition follows spec §4.2
and is checked against the test fixtures. -/
def parse (rawResponse : List Char) : ParsedMessage :=
  match processLines (splitLines rawResponse) initState with
  | st => ⟨st.done, st.content, st.toolCalls, st.agentCalls⟩

end MultiResponseParser

/-- The scheduler's view of an agent (`src/agent/index.ts`): only the unique
`name` is read by the scheduler; prompt handling is abstracted as a handler
function passed to `processQueue`. -/
structure Agent where
  name : String
deriving Repr, DecidableEq

/-- Type `ToolResponse` (`src/model/types.ts` / tool-result batches). -/
structure ToolResponse where
  correlationId : String
  success : Bool
  content : String
deriving Repr, DecidableEq

/-- Type `ToolResponses`: a batch of tool results fed back as one prompt. -/
structure ToolResponses where
  responses : List ToolResponse
deriving Repr, DecidableEq

/-- A prompt payload: a plain string or a batch of tool responses
(`string | ToolResponses` in `schedulePrompt`). -/
inductive Prompt where
  | text : String → Prompt
  | toolResponses : ToolResponses → Prompt
deriving Repr, DecidableEq

/-- Type `PromptQueueItem` (`src/agent/index.ts` lines 17-22). -/
structure PromptQueueItem where
  agent : Agent
  prompt : Prompt
  sourceAgent : Option Agent
  correlationId : Option String
deriving Repr, DecidableEq

/-- JavaScript template-literal rendering of a possibly-undefined string
(an undefined correlation id prints as `undefined`). -/
def optStr : Option String → String
  | none => "undefined"
  | some s => s

/-- Type `PromptScheduler`: the state (`src/agent/scheduler.ts` lines 9-11): the FIFO
prompt queue and the agent registry (a name-keyed map, modelled as an
association list whose head entry wins, so re-registration shadows). -/
structure PromptScheduler where
  promptQueue : List PromptQueueItem
  agentRegistry : List (String × Agent)
deriving Repr, DecidableEq

/-- Method `PromptScheduler.registerAgent` (source lines 16-19): `Map.set` keyed by
the agent's name; the newest registration is found first. -/
def registerAgent (sch : PromptScheduler) (agent : Agent) : PromptScheduler :=
  { sch with agentRegistry := (agent.name, agent) :: sch.agentRegistry }

/-- The tail push of `schedulePrompt` (source lines 45 and 50): append one
`PromptQueueItem` to the queue. -/
def pushPrompt (sch : PromptScheduler) (a : Agent) (prompt : Prompt)
    (correlationId : Option String) (sourceAgent : Option Agent) : PromptScheduler :=
  { sch with promptQueue := sch.promptQueue ++ [⟨a, prompt, sourceAgent, correlationId⟩] }

/-- Method `PromptScheduler.schedulePrompt` (source lines 30-53): a direct agent
reference, or a registered name, enqueues one item at the tail; an
unregistered name with a known source agent recursively schedules a
synthesized failure message back to the source (with no source of its own),
and with no source agent only logs.  The source's recursive call passes a
direct agent reference, so it lands in the push branch; that single
recursion step is inlined here as `pushPrompt`. -/
def schedulePrompt (sch : PromptScheduler) (agent : Sum Agent String) (prompt : Prompt)
    (correlationId : Option String) (sourceAgent : Option Agent) : PromptScheduler :=
  match agent with
  | Sum.inr name =>
    match sch.agentRegistry.lookup name with
    | none =>
      match sourceAgent with
      | some src =>
        pushPrompt sch src
          (Prompt.text ("Agent not found: " ++ name ++ ", correlationId: " ++
            optStr correlationId))
          correlationId none
      | none => sch
    | some foundAgent => pushPrompt sch foundAgent prompt correlationId sourceAgent
  | Sum.inl a => pushPrompt sch a prompt correlationId sourceAgent

/-- Outcome of one invocation of an agent's `handlePrompt`: on success, the
items the handler itself scheduled (appended at the tail in order); on a
thrown error, the error message. -/
inductive HandlerOutcome where
  | ok : List PromptQueueItem → HandlerOutcome
  | error : String → HandlerOutcome

/-- Method `PromptScheduler.processQueue` (source lines 59-76): drain the queue in
FIFO order, shifting the head item, invoking the handler, and on a thrown
error re-scheduling an error-report prompt to the same agent with the same
correlation id and source.  Returns the sequence of items handled (the
observable dispatch order) and the final state.  Fuel bounds the number of
iterations; the source loop runs until the queue is empty. -/
def processQueue (handler : PromptQueueItem → HandlerOutcome) :
    Nat → PromptScheduler → List PromptQueueItem × PromptScheduler
  | 0, sch => ([], sch)
  | fuel + 1, sch =>
    match sch.promptQueue with
    | [] => ([], sch)
    | nextPrompt :: rest =>
      match handler nextPrompt with
      | .ok newItems =>
        match processQueue handler fuel { sch with promptQueue := rest ++ newItems } with
        | (trace, final) => (nextPrompt :: trace, final)
      | .error msg =>
        match processQueue handler fuel
            (schedulePrompt { sch with promptQueue := rest } (Sum.inl nextPrompt.agent)
              (Prompt.text ("Error processing prompt: " ++ msg))
              nextPrompt.correlationId nextPrompt.sourceAgent) with
        | (trace, final) => (nextPrompt :: trace, final)

theorem startsWithChars_iff (p cs : List Char) :
    startsWithChars p cs = true ↔ ∃ t, cs = p ++ t := by
  induction p generalizing cs with
  | nil => simp [startsWithChars]
  | cons a ps ih =>
    cases cs with
    | nil => simp [startsWithChars]
    | cons c cs =>
      simp only [startsWithChars, Bool.and_eq_true, beq_iff_eq, ih]
      constructor
      · rintro ⟨rfl, t, rfl⟩; exact ⟨t, rfl⟩
      · rintro ⟨t, h⟩
        cases h
        exact ⟨rfl, t, rfl⟩

theorem containsSub_iff (p cs : List Char) :
    containsSub p cs = true ↔ ∃ s t, cs = s ++ p ++ t := by
  induction cs with
  | nil =>
    simp only [containsSub, startsWithChars_iff]
    constructor
    · rintro ⟨t, h⟩; exact ⟨[], t, h⟩
    · rintro ⟨s, t, h⟩
      rcases List.append_eq_nil.mp (List.append_eq_nil.mp h.symm).1 with ⟨rfl, rfl⟩
      exact ⟨t, h⟩
  | cons c cs ih =>
    simp only [containsSub, Bool.or_eq_true, startsWithChars_iff, ih]
    constructor
    · rintro (⟨t, h⟩ | ⟨s, t, h⟩)
      · exact ⟨[], t, h⟩
      · exact ⟨c :: s, t, by simp [h]⟩
    · rintro ⟨s, t, h⟩
      cases s with
      | nil => exact Or.inl ⟨t, by simpa using h⟩
      | cons a s =>
        right
        refine ⟨s, t, ?_⟩
        have := congrArg List.tail h
        simpa using this

theorem splitLines_ne_nil (cs : List Char) : splitLines cs ≠ [] := by
  cases cs with
  | nil => simp [splitLines]
  | cons c cs =>
    simp only [splitLines]
    split
    · simp
    · split <;> simp

theorem joinLines_splitLines (cs : List Char) : joinLines (splitLines cs) = cs := by
  induction cs with
  | nil => rfl
  | cons c cs ih =>
    simp only [splitLines]
    split
    · rename_i h
      subst h
      rcases hs : splitLines cs with _ | ⟨l, ls⟩
      · exact absurd hs (splitLines_ne_nil cs)
      · rw [hs] at ih
        simpa [joinLines] using ih
    · rcases hs : splitLines cs with _ | ⟨l, ls⟩
      · exact absurd hs (splitLines_ne_nil cs)
      · rw [hs] at ih
        cases ls with
        | nil => simpa [joinLines] using ih
        | cons l2 ls2 => simpa [joinLines] using ih

namespace Scanner

theorem advance_input (s : Scanner) : (advance s).input = s.input := by
  simp only [advance, next]
  rcases h : s.input.get? s.position <;> simp

theorem advance_le (s : Scanner) : s.position ≤ (advance s).position := by
  simp only [advance, next]
  rcases h : s.input.get? s.position <;> simp

theorem advance_le_length (s : Scanner) (h : s.position ≤ s.input.length) :
    (advance s).position ≤ s.input.length := by
  simp only [advance, next]
  rcases hg : s.input.get? s.position with _ | c
  · simpa using h
  · have := List.get?_eq_some.mp hg
    simpa using this.1

theorem advance_lt (s : Scanner) (h : s.position < s.input.length) :
    (advance s).position = s.position + 1 := by
  simp only [advance, next]
  rcases hg : s.input.get? s.position with _ | c
  · exact absurd (List.get?_eq_none.mp hg) (by omega)
  · simp

theorem skipWsGo_le (cs : List Char) : skipWsGo cs ≤ cs.length := by
  induction cs with
  | nil => simp [skipWsGo]
  | cons c cs ih =>
    simp only [skipWsGo]
    split
    · simpa using Nat.succ_le_succ ih
    · simp

theorem skipWhitespace_input (s : Scanner) :
    (skipWhitespace s).input = s.input := rfl

theorem skipWhitespace_le (s : Scanner) :
    s.position ≤ (skipWhitespace s).position := by
  simp [skipWhitespace]

theorem skipWhitespace_le_length (s : Scanner) (h : s.position ≤ s.input.length) :
    (skipWhitespace s).position ≤ s.input.length := by
  have := skipWsGo_le (s.input.drop s.position)
  simp only [skipWhitespace]
  simp only [List.length_drop] at this
  omega

theorem nextUntilGo_le (delimiters cs : List Char) :
    (nextUntilGo delimiters cs).2 ≤ cs.length := by
  induction cs with
  | nil => simp [nextUntilGo]
  | cons c cs ih =>
    simp only [nextUntilGo]
    split
    · simp
    · simpa using Nat.succ_le_succ ih

theorem nextUntil_input (s : Scanner) (delimiters : List Char) :
    (nextUntil s delimiters).2.input = s.input := rfl

theorem nextUntil_le (s : Scanner) (delimiters : List Char) :
    s.position ≤ (nextUntil s delimiters).2.position := by
  simp [nextUntil]

theorem nextUntil_le_length (s : Scanner) (delimiters : List Char)
    (h : s.position ≤ s.input.length) :
    (nextUntil s delimiters).2.position ≤ s.input.length := by
  have := nextUntilGo_le delimiters (s.input.drop s.position)
  simp only [nextUntil, List.length_drop] at *
  omega

/-- The result of `nextUntil` is exactly the longest delimiter-free initial
segment of the remaining input. -/
theorem nextUntilGo_fst (delimiters cs : List Char) :
    (nextUntilGo delimiters cs).1 = cs.takeWhile (fun c => !delimiters.contains c) := by
  induction cs with
  | nil => simp [nextUntilGo]
  | cons c cs ih =>
    simp only [nextUntilGo, List.takeWhile]
    rcases h : delimiters.contains c with _ | _ <;> simp [h, ih]

theorem nextUntilGo_snd (delimiters cs : List Char) :
    (nextUntilGo delimiters cs).2 = (cs.takeWhile (fun c => !delimiters.contains c)).length := by
  induction cs with
  | nil => simp [nextUntilGo]
  | cons c cs ih =>
    simp only [nextUntilGo, List.takeWhile]
    rcases h : delimiters.contains c with _ | _ <;> simp [h, ih]

theorem eof_false_iff (s : Scanner) : eof s = false ↔ s.position < s.input.length := by
  simp only [eof, decide_eq_false_iff_not, not_le]

theorem next_of_lt (s : Scanner) (h : s.position < s.input.length) :
    ∃ c, next s = (some c, { s with position := s.position + 1 }) := by
  simp only [next]
  rcases hg : s.input.get? s.position with _ | c
  · exact absurd (List.get?_eq_none.mp hg) (by omega)
  · exact ⟨c, rfl⟩

theorem slice_infix (s : Scanner) (a b : Nat) :
    ∃ pre post, s.input = pre ++ slice s a b ++ post := by
  refine ⟨s.input.take a, (s.input.drop a).drop (b - a), ?_⟩
  simp [slice]

end Scanner

theorem scanDoubleQuote_eq_generic (n : Nat) (s : Scanner) :
    scanDoubleQuote n s = scanQuoteGeneric '"' n s := by
  induction n generalizing s with
  | zero => rfl
  | succ n ih =>
    simp only [scanDoubleQuote, scanQuoteGeneric]
    split
    · rfl
    · rcases Scanner.next s with ⟨_ | c, s1⟩
      · rfl
      · simp only
        split
        · rfl
        · split <;> exact ih _

theorem scanBacktick_eq_generic (n : Nat) (s : Scanner) :
    scanBacktick n s = scanQuoteGeneric backtickChar n s := by
  induction n generalizing s with
  | zero => rfl
  | succ n ih =>
    simp only [scanBacktick, scanQuoteGeneric]
    split
    · rfl
    · rcases Scanner.next s with ⟨_ | c, s1⟩
      · rfl
      · simp only
        split
        · rfl
        · split <;> exact ih _

theorem scanSingleQuote_eq_generic (n : Nat) (s : Scanner) :
    scanSingleQuote n s = scanQuoteGeneric singleQuoteChar n s := by
  induction n generalizing s with
  | zero => rfl
  | succ n ih =>
    simp only [scanSingleQuote, scanQuoteGeneric]
    split
    · rfl
    · rcases Scanner.next s with ⟨_ | c, s1⟩
      · rfl
      · simp only
        split
        · rfl
        · split <;> exact ih _

theorem scanQuoteGeneric_spec (q : Char) (n : Nat) (s s1 : Scanner)
    (h : scanQuoteGeneric q n s = some s1) :
    s1.input = s.input ∧ s.position ≤ s1.position ∧
      (s.position ≤ s.input.length → s1.position ≤ s.input.length) := by
  induction n generalizing s with
  | zero => simp [scanQuoteGeneric] at h
  | succ n ih =>
    simp only [scanQuoteGeneric] at h
    by_cases he : Scanner.eof s = true
    · rw [if_pos he] at h
      cases h
      exact ⟨rfl, le_refl _, fun h => h⟩
    · rw [if_neg he] at h
      have hlt := (Scanner.eof_false_iff s).mp (by simpa using he)
      obtain ⟨c, hc⟩ := Scanner.next_of_lt s hlt
      rw [hc] at h
      simp only at h
      by_cases hq : (c == q) = true
      · rw [if_pos hq] at h
        cases h
        exact ⟨rfl, by simp, fun _ => by simpa using hlt⟩
      · rw [if_neg hq] at h
        by_cases hb : (c == '\\') = true
        · rw [if_pos hb] at h
          obtain ⟨hi, hp, hbd⟩ := ih _ h
          have e1 : (Scanner.advance { s with position := s.position + 1 }).input = s.input :=
            Scanner.advance_input _
          have e2 : s.position + 1 ≤
              (Scanner.advance { s with position := s.position + 1 }).position :=
            Scanner.advance_le { s with position := s.position + 1 }
          have e3 : (Scanner.advance { s with position := s.position + 1 }).position ≤
              s.input.length :=
            Scanner.advance_le_length { s with position := s.position + 1 } hlt
          rw [e1] at hi hbd
          exact ⟨hi, by omega, fun _ => hbd e3⟩
        · rw [if_neg hb] at h
          obtain ⟨hi, hp, hbd⟩ := ih _ h
          exact ⟨hi, by exact le_trans (Nat.le_succ _) hp, fun _ => hbd hlt⟩

theorem scanQuoteGeneric_isSome (q : Char) (n : Nat) (s : Scanner)
    (h : s.input.length - s.position < n) :
    (scanQuoteGeneric q n s).isSome = true := by
  induction n generalizing s with
  | zero => omega
  | succ n ih =>
    simp only [scanQuoteGeneric]
    by_cases he : Scanner.eof s = true
    · simp [he]
    · rw [if_neg he]
      have hlt := (Scanner.eof_false_iff s).mp (by simpa using he)
      obtain ⟨c, hc⟩ := Scanner.next_of_lt s hlt
      rw [hc]
      simp only
      by_cases hq : (c == q) = true
      · simp [hq]
      · rw [if_neg hq]
        by_cases hb : (c == '\\') = true
        · rw [if_pos hb]
          apply ih
          have e1 : (Scanner.advance { s with position := s.position + 1 }).input = s.input :=
            Scanner.advance_input _
          have e2 : s.position + 1 ≤
              (Scanner.advance { s with position := s.position + 1 }).position :=
            Scanner.advance_le { s with position := s.position + 1 }
          rw [e1]
          omega
        · rw [if_neg hb]
          apply ih
          show s.input.length - (s.position + 1) < n
          omega

theorem Scanner.peek_some_lt (s : Scanner) (c : Char) (h : Scanner.peek s = some c) :
    s.position < s.input.length := by
  simpa using (List.get?_eq_some.mp h).1

theorem parseArgsLoop_isSome (n : Nat) :
    ∀ (acc : List (List Char)) (argStart depth : Nat) (s0 : Scanner),
      s0.input.length - s0.position < n →
      (parseArgsLoop acc argStart depth n s0).isSome = true := by
  induction n with
  | zero => intro acc a d s0 h; omega
  | succ n ih =>
    intro acc argStart depth s0 h
    simp only [parseArgsLoop]
    have hswi : (Scanner.skipWhitespace s0).input = s0.input :=
      Scanner.skipWhitespace_input s0
    have hswp : s0.position ≤ (Scanner.skipWhitespace s0).position :=
      Scanner.skipWhitespace_le s0
    by_cases he : Scanner.eof (Scanner.skipWhitespace s0) = true
    · simp [he]
    · rw [Bool.not_eq_true] at he
      simp only [he, Bool.false_eq_true, if_false]
      have hlt : (Scanner.skipWhitespace s0).position < s0.input.length := by
        have := (Scanner.eof_false_iff _).mp he
        rwa [hswi] at this
      have hadv : (Scanner.advance (Scanner.skipWhitespace s0)).position
          = (Scanner.skipWhitespace s0).position + 1 :=
        Scanner.advance_lt _ (by rwa [hswi])
      have hadvi : (Scanner.advance (Scanner.skipWhitespace s0)).input = s0.input := by
        rw [Scanner.advance_input, hswi]
      have hrec : ∀ t : Scanner, t.input = s0.input →
          (Scanner.skipWhitespace s0).position + 1 ≤ t.position →
          ∀ acc2 a2 d2, (parseArgsLoop acc2 a2 d2 n t).isSome = true := by
        intro t hti htp acc2 a2 d2
        apply ih
        rw [hti]
        omega
      split
      · split
        · simp
        · exact hrec _ hadvi (le_of_eq hadv.symm) _ _ _
      · split
        · exact hrec _ hadvi (le_of_eq hadv.symm) _ _ _
        · split
          · apply hrec _ _ _
            · rw [Scanner.skipWhitespace_input, hadvi]
            · calc (Scanner.skipWhitespace s0).position + 1
                  = (Scanner.advance (Scanner.skipWhitespace s0)).position := hadv.symm
                _ ≤ _ := Scanner.skipWhitespace_le _
          · split
            · have hq : (scanDoubleQuote n
                  (Scanner.advance (Scanner.skipWhitespace s0))).isSome = true := by
                rw [scanDoubleQuote_eq_generic]
                apply scanQuoteGeneric_isSome
                rw [hadvi, hadv]
                omega
              obtain ⟨s1, hs1⟩ := Option.isSome_iff_exists.mp hq
              rw [hs1]
              rw [scanDoubleQuote_eq_generic] at hs1
              obtain ⟨h1i, h1p, _⟩ := scanQuoteGeneric_spec _ _ _ _ hs1
              exact hrec _ (by rw [h1i, hadvi]) (by omega) _ _ _
            · split
              · have hq : (scanBacktick n
                    (Scanner.advance (Scanner.skipWhitespace s0))).isSome = true := by
                  rw [scanBacktick_eq_generic]
                  apply scanQuoteGeneric_isSome
                  rw [hadvi, hadv]
                  omega
                obtain ⟨s1, hs1⟩ := Option.isSome_iff_exists.mp hq
                rw [hs1]
                rw [scanBacktick_eq_generic] at hs1
                obtain ⟨h1i, h1p, _⟩ := scanQuoteGeneric_spec _ _ _ _ hs1
                exact hrec _ (by rw [h1i, hadvi]) (by omega) _ _ _
              · split
                · have hq : (scanSingleQuote n
                      (Scanner.advance (Scanner.skipWhitespace s0))).isSome = true := by
                    rw [scanSingleQuote_eq_generic]
                    apply scanQuoteGeneric_isSome
                    rw [hadvi, hadv]
                    omega
                  obtain ⟨s1, hs1⟩ := Option.isSome_iff_exists.mp hq
                  rw [hs1]
                  rw [scanSingleQuote_eq_generic] at hs1
                  obtain ⟨h1i, h1p, _⟩ := scanQuoteGeneric_spec _ _ _ _ hs1
                  exact hrec _ (by rw [h1i, hadvi]) (by omega) _ _ _
                · exact hrec _ hadvi (le_of_eq hadv.symm) _ _ _

theorem parseArgsLoop_spec (n : Nat) :
    ∀ (acc : List (List Char)) (argStart depth : Nat) (s0 : Scanner)
      (args : List (List Char)) (s1 : Scanner) (closed : Bool),
      parseArgsLoop acc argStart depth n s0 = some (args, s1, closed) →
      s1.input = s0.input ∧ s0.position ≤ s1.position ∧
        (s0.position ≤ s0.input.length → s1.position ≤ s0.input.length) ∧
        (closed = false → args = []) ∧
        (∀ a ∈ args, a ∈ acc ∨ ∃ pre post, s0.input = pre ++ a ++ post) := by
  induction n with
  | zero => intro acc a d s0 args s1 closed h; simp [parseArgsLoop] at h
  | succ n ih =>
    intro acc argStart depth s0 args s1 closed h
    simp only [parseArgsLoop] at h
    have hswi : (Scanner.skipWhitespace s0).input = s0.input :=
      Scanner.skipWhitespace_input s0
    have hswp : s0.position ≤ (Scanner.skipWhitespace s0).position :=
      Scanner.skipWhitespace_le s0
    have hswb := Scanner.skipWhitespace_le_length s0
    by_cases he : Scanner.eof (Scanner.skipWhitespace s0) = true
    · rw [if_pos he] at h
      simp only [Option.some.injEq, Prod.mk.injEq] at h
      obtain ⟨rfl, rfl, rfl⟩ := h
      exact ⟨hswi, hswp, hswb, fun _ => rfl, by simp⟩
    · rw [Bool.not_eq_true] at he
      rw [if_neg (by simp [he])] at h
      have hlt : (Scanner.skipWhitespace s0).position < s0.input.length := by
        have := (Scanner.eof_false_iff _).mp he
        rwa [hswi] at this
      have hadv : (Scanner.advance (Scanner.skipWhitespace s0)).position
          = (Scanner.skipWhitespace s0).position + 1 :=
        Scanner.advance_lt _ (by rwa [hswi])
      have hadvi : (Scanner.advance (Scanner.skipWhitespace s0)).input = s0.input := by
        rw [Scanner.advance_input, hswi]
      -- composing the inductive hypothesis across an intermediate state
      have hcomp : ∀ (t : Scanner) acc2 a2 d2, t.input = s0.input →
          s0.position ≤ t.position → (s0.position ≤ s0.input.length → t.position ≤ s0.input.length) →
          (∀ a ∈ acc2, a ∈ acc ∨ ∃ pre post, s0.input = pre ++ a ++ post) →
          parseArgsLoop acc2 a2 d2 n t = some (args, s1, closed) →
          s1.input = s0.input ∧ s0.position ≤ s1.position ∧
            (s0.position ≤ s0.input.length → s1.position ≤ s0.input.length) ∧
            (closed = false → args = []) ∧
            (∀ a ∈ args, a ∈ acc ∨ ∃ pre post, s0.input = pre ++ a ++ post) := by
        intro t acc2 a2 d2 hti htp htb hacc2 hcall
        obtain ⟨i1, i2, i3, i4, i5⟩ := ih acc2 a2 d2 t args s1 closed hcall
        refine ⟨by rw [i1, hti], le_trans htp i2, ?_, i4, ?_⟩
        · intro hb
          have := i3 (by rw [hti]; exact htb hb)
          rw [hti] at this
          exact this
        · intro a ha
          rcases i5 a ha with hmem | ⟨pre, post, hinf⟩
          · exact hacc2 a hmem
          · right
            rw [hti] at hinf
            exact ⟨pre, post, hinf⟩
      split at h
      · split at h
        · simp only [Option.some.injEq, Prod.mk.injEq] at h
          obtain ⟨rfl, rfl, rfl⟩ := h
          refine ⟨hswi, hswp, hswb, ?_, ?_⟩
          · intro hc
            simp at hc
          intro a ha
          rcases List.mem_append.mp ha with hmem | hsl
          · exact Or.inl hmem
          · right
            obtain ⟨pre, post, hinf⟩ :=
              Scanner.slice_infix (Scanner.skipWhitespace s0) argStart
                (Scanner.skipWhitespace s0).position
            rw [hswi] at hinf
            exact ⟨pre, post, by rw [hinf, List.mem_singleton.mp hsl]⟩
        · exact hcomp _ _ _ _ hadvi (by omega) (fun _ => by rw [hadv]; omega) (fun a ha => Or.inl ha) h
      · split at h
        · exact hcomp _ _ _ _ hadvi (by omega) (fun _ => by rw [hadv]; omega) (fun a ha => Or.inl ha) h
        · split at h
          · refine hcomp _ _ _ _ ?_ ?_ ?_ ?_ h
            · rw [Scanner.skipWhitespace_input, hadvi]
            · have := Scanner.skipWhitespace_le (Scanner.advance (Scanner.skipWhitespace s0))
              omega
            · intro hb
              have h1 : (Scanner.advance (Scanner.skipWhitespace s0)).position ≤ s0.input.length := by
                rw [hadv]; omega
              have := Scanner.skipWhitespace_le_length
                (Scanner.advance (Scanner.skipWhitespace s0)) (by rwa [hadvi])
              rwa [hadvi] at this
            · intro a ha
              rcases List.mem_append.mp ha with hmem | hsl
              · exact Or.inl hmem
              · right
                obtain ⟨pre, post, hinf⟩ :=
                  Scanner.slice_infix (Scanner.skipWhitespace s0) argStart
                    (Scanner.skipWhitespace s0).position
                rw [hswi] at hinf
                exact ⟨pre, post, by rw [hinf, List.mem_singleton.mp hsl]⟩
          · split at h
            · rcases hq : scanDoubleQuote n (Scanner.advance (Scanner.skipWhitespace s0)) with
                _ | s2
              · rw [hq] at h; cases h
              · rw [hq] at h
                rw [scanDoubleQuote_eq_generic] at hq
                obtain ⟨q1, q2, q3⟩ := scanQuoteGeneric_spec _ _ _ _ hq
                refine hcomp _ _ _ _ (by rw [q1, hadvi]) (by omega) ?_ (fun a ha => Or.inl ha) h
                intro hb
                have := q3 (by rw [hadvi, hadv]; omega)
                rw [hadvi] at this
                exact this
            · split at h
              · rcases hq : scanBacktick n (Scanner.advance (Scanner.skipWhitespace s0)) with
                  _ | s2
                · rw [hq] at h; cases h
                · rw [hq] at h
                  rw [scanBacktick_eq_generic] at hq
                  obtain ⟨q1, q2, q3⟩ := scanQuoteGeneric_spec _ _ _ _ hq
                  refine hcomp _ _ _ _ (by rw [q1, hadvi]) (by omega) ?_ (fun a ha => Or.inl ha) h
                  intro hb
                  have := q3 (by rw [hadvi, hadv]; omega)
                  rw [hadvi] at this
                  exact this
              · split at h
                · rcases hq : scanSingleQuote n
                      (Scanner.advance (Scanner.skipWhitespace s0)) with _ | s2
                  · rw [hq] at h; cases h
                  · rw [hq] at h
                    rw [scanSingleQuote_eq_generic] at hq
                    obtain ⟨q1, q2, q3⟩ := scanQuoteGeneric_spec _ _ _ _ hq
                    refine hcomp _ _ _ _ (by rw [q1, hadvi]) (by omega) ?_ (fun a ha => Or.inl ha) h
                    intro hb
                    have := q3 (by rw [hadvi, hadv]; omega)
                    rw [hadvi] at this
                    exact this
                · exact hcomp _ _ _ _ hadvi (by omega) (fun _ => by rw [hadv]; omega)
                    (fun a ha => Or.inl ha) h

theorem Scanner.matchChar_input (s : Scanner) (c : Char) :
    (Scanner.matchChar s c).input = s.input := by
  simp only [Scanner.matchChar]
  split
  · exact Scanner.advance_input s
  · rfl

theorem Scanner.matchChar_le (s : Scanner) (c : Char) :
    s.position ≤ (Scanner.matchChar s c).position := by
  simp only [Scanner.matchChar]
  split
  · exact Scanner.advance_le s
  · exact le_refl _

theorem Scanner.matchChar_le_length (s : Scanner) (c : Char)
    (h : s.position ≤ s.input.length) :
    (Scanner.matchChar s c).position ≤ s.input.length := by
  simp only [Scanner.matchChar]
  split
  · exact Scanner.advance_le_length s h
  · exact h

theorem parseArguments_isSome (fuel : Nat) (s : Scanner)
    (h : s.input.length - s.position < fuel) :
    (parseArguments fuel s).isSome = true := by
  simp only [parseArguments]
  split
  · simp
  · apply parseArgsLoop_isSome
    have h1 := Scanner.skipWhitespace_le s
    have h2 := Scanner.matchChar_le (Scanner.skipWhitespace s) '('
    have h3 := Scanner.skipWhitespace_le (Scanner.matchChar (Scanner.skipWhitespace s) '(')
    have e1 := Scanner.skipWhitespace_input s
    have e2 := Scanner.matchChar_input (Scanner.skipWhitespace s) '('
    have e3 := Scanner.skipWhitespace_input (Scanner.matchChar (Scanner.skipWhitespace s) '(')
    rw [e3, e2, e1]
    omega

theorem parseArguments_bound (fuel : Nat) (s : Scanner)
    (args : List (List Char)) (s1 : Scanner) (closed : Bool)
    (h : parseArguments fuel s = some (args, s1, closed))
    (hb : s.position ≤ s.input.length) :
    s1.input = s.input ∧ s1.position ≤ s.input.length := by
  have e1 := Scanner.skipWhitespace_input s
  have e2 := Scanner.matchChar_input (Scanner.skipWhitespace s) '('
  have e3 := Scanner.skipWhitespace_input (Scanner.matchChar (Scanner.skipWhitespace s) '(')
  have b1 := Scanner.skipWhitespace_le_length s hb
  have b2 := Scanner.matchChar_le_length (Scanner.skipWhitespace s) '(' (by rwa [e1])
  have b3 := Scanner.skipWhitespace_le_length
    (Scanner.matchChar (Scanner.skipWhitespace s) '(') (by rwa [e2, e1])
  rw [e2, e1] at b3
  simp only [parseArguments] at h
  split at h
  · simp only [Option.some.injEq, Prod.mk.injEq] at h
    obtain ⟨rfl, rfl, rfl⟩ := h
    constructor
    · rw [Scanner.advance_input, e3, e2, e1]
    · have := Scanner.advance_le_length
        (Scanner.skipWhitespace (Scanner.matchChar (Scanner.skipWhitespace s) '('))
        (by rw [e3, e2, e1]; exact b3)
      rwa [e3, e2, e1] at this
  · obtain ⟨i1, i2, i3, _, _⟩ := parseArgsLoop_spec fuel _ _ _ _ _ _ _ h
    rw [e3, e2, e1] at i1 i3
    exact ⟨i1, i3 b3⟩

theorem startsWithChars_length (p cs : List Char) (h : startsWithChars p cs = true) :
    p.length ≤ cs.length := by
  obtain ⟨t, rfl⟩ := (startsWithChars_iff p cs).mp h
  simp

theorem Scanner.peek_drop (s : Scanner) (c : Char) (h : Scanner.peek s = some c) :
    ∃ rest, s.input.drop s.position = c :: rest := by
  have h2 : (s.input.drop s.position).head? = some c := by
    rw [List.head?_drop, ← List.get?_eq_getElem?]
    exact h
  rcases hd : s.input.drop s.position with _ | ⟨d, ds⟩
  · rw [hd] at h2
    cases h2
  · rw [hd] at h2
    simp only [List.head?, Option.some.injEq] at h2
    exact ⟨ds, by rw [h2]⟩

/-- When the cursor is at a non-delimiter character, `nextUntil` advances
the cursor by at least one. -/
theorem Scanner.nextUntil_pos_strict (s : Scanner) (delimiters : List Char) (c : Char)
    (hc : Scanner.peek s = some c) (hnc : delimiters.contains c = false) :
    s.position + 1 ≤ (Scanner.nextUntil s delimiters).2.position := by
  obtain ⟨rest, hrest⟩ := Scanner.peek_drop s c hc
  have hmem : c ∉ delimiters := by simpa using hnc
  simp only [Scanner.nextUntil, Scanner.nextUntilGo_snd, hrest]
  rw [List.takeWhile_cons]
  simp [hmem]

theorem Scanner.skipWsGo_stop (cs : List Char) :
    Scanner.skipWsGo cs = cs.length ∨
      ∃ c cs', cs.drop (Scanner.skipWsGo cs) = c :: cs' ∧ ¬(c.toNat ≤ 32) := by
  induction cs with
  | nil => exact Or.inl rfl
  | cons c cs ih =>
    simp only [Scanner.skipWsGo]
    by_cases hc : c.toNat ≤ 32
    · rw [if_pos hc]
      rcases ih with h | ⟨d, ds, hd, hgt⟩
      · exact Or.inl (by simp [h])
      · exact Or.inr ⟨d, ds, by simpa using hd, hgt⟩
    · rw [if_neg hc]
      exact Or.inr ⟨c, cs, rfl, hc⟩

/-- After `skipWhitespace` the scanner is either at the end of input or
looking at a non-whitespace character. -/
theorem Scanner.skipWhitespace_stop (s : Scanner) :
    s.input.length ≤ (Scanner.skipWhitespace s).position ∨
      ∃ c, Scanner.peek (Scanner.skipWhitespace s) = some c ∧ ¬(c.toNat ≤ 32) := by
  rcases Scanner.skipWsGo_stop (s.input.drop s.position) with h | ⟨c, cs', hd, hgt⟩
  · left
    simp only [Scanner.skipWhitespace]
    simp only [List.length_drop] at h
    omega
  · right
    refine ⟨c, ?_, hgt⟩
    rw [List.drop_drop] at hd
    simp only [Scanner.peek, Scanner.skipWhitespace, List.get?_eq_getElem?,
      ← List.head?_drop, hd]
    rfl

theorem ResponseParser.parseLoop_isSome (n : Nat) :
    ∀ sc : Scanner, sc.input.length - sc.position < n →
      (ResponseParser.parseLoop n sc).isSome = true := by
  induction n with
  | zero => intro sc h; omega
  | succ n ih =>
    intro sc h
    simp only [ResponseParser.parseLoop]
    by_cases he : Scanner.eof sc = true
    · simp [he]
    · rw [Bool.not_eq_true] at he
      simp only [he, Bool.false_eq_true, if_false]
      have hlt : sc.position < sc.input.length := (Scanner.eof_false_iff sc).mp he
      have hswi : (Scanner.skipWhitespace sc).input = sc.input :=
        Scanner.skipWhitespace_input sc
      have hswp : sc.position ≤ (Scanner.skipWhitespace sc).position :=
        Scanner.skipWhitespace_le sc
      by_cases hp : Scanner.hasPrefix (Scanner.skipWhitespace sc) ("TOOL:".toList) = true
      · rw [if_pos hp]
        have h5 : (Scanner.skipWhitespace sc).position + 5 ≤ sc.input.length := by
          have hl := startsWithChars_length _ _ hp
          have e : ("TOOL:".toList).length = 5 := by decide
          simp only [List.length_drop, hswi, e] at hl
          omega
        rcases hnu : Scanner.nextUntil
            (Scanner.skipWhitespace
              (⟨(Scanner.skipWhitespace sc).input, (Scanner.skipWhitespace sc).position + 5⟩ :
                Scanner)) ['(', ' ', '.', '\n'] with ⟨fullToolIdentifier, s3⟩
        simp only [hnu]
        split
        · simp
        · rcases hec : extractCorrelation fullToolIdentifier with ⟨correlationId, toolName⟩
          simp only [hec]
          split
          · rcases hnu2 : Scanner.nextUntil
                (Scanner.skipWhitespace
                  (Scanner.advance (Scanner.skipWhitespace s3))) ['(', ' ', '\n'] with
              ⟨functionName, s7⟩
            simp only [hnu2]
            have hps : (parseArguments
                ((Scanner.skipWhitespace s7).input.length + 1)
                (Scanner.skipWhitespace s7)).isSome = true := by
              apply parseArguments_isSome
              omega
            rcases hpa : parseArguments ((Scanner.skipWhitespace s7).input.length + 1)
                (Scanner.skipWhitespace s7) with _ | ⟨args, s9, closed⟩
            · rw [hpa] at hps; simp at hps
            · simp
          · apply ih
            -- track the cursor through the identifier scan
            have e1 : s3.input = sc.input := by
              have e2 := congrArg (fun p => p.2.input) hnu
              simp only at e2
              rw [← e2, Scanner.nextUntil_input, Scanner.skipWhitespace_input]
              exact hswi
            have p1 : (Scanner.skipWhitespace sc).position + 5 ≤ s3.position := by
              have e2 := congrArg (fun p => p.2.position) hnu
              simp only at e2
              have h2 := Scanner.nextUntil_le
                (Scanner.skipWhitespace
                  (⟨(Scanner.skipWhitespace sc).input,
                    (Scanner.skipWhitespace sc).position + 5⟩ : Scanner)) ['(', ' ', '.', '\n']
              have h3 := Scanner.skipWhitespace_le
                (⟨(Scanner.skipWhitespace sc).input,
                  (Scanner.skipWhitespace sc).position + 5⟩ : Scanner)
              simp only at h3
              omega
            have p2 := Scanner.skipWhitespace_le s3
            rw [Scanner.skipWhitespace_input, e1]
            omega
      · rw [if_neg (by simpa using hp)]
        rcases hnu : Scanner.nextUntil (Scanner.skipWhitespace sc) ['\n'] with ⟨r, s9⟩
        simp only [hnu]
        apply ih
        have e1 : s9.input = sc.input := by
          have e2 := congrArg (fun p => p.2.input) hnu
          simp only at e2
          rw [← e2, Scanner.nextUntil_input, Scanner.skipWhitespace_input]
        have p1 : (Scanner.skipWhitespace sc).position ≤ s9.position := by
          have h2 := Scanner.nextUntil_le (Scanner.skipWhitespace sc) ['\n']
          rw [hnu] at h2
          exact h2
        have p2 := Scanner.advance_le s9
        have hai := Scanner.advance_input s9
        rw [hai, e1]
        -- the iteration advances strictly: either the whitespace skip crossed a
        -- character, or the line skip consumed at least one
        rcases Scanner.skipWhitespace_stop sc with hend | ⟨c, hc, hgt⟩
        · omega
        · have hcne : (['\n'].contains c) = false := by
            have : ¬ c = '\n' := fun hh => hgt (by rw [hh]; decide)
            simpa using this
          have hstrict := Scanner.nextUntil_pos_strict (Scanner.skipWhitespace sc)
            ['\n'] c hc hcne
          rw [hnu] at hstrict
          simp only at hstrict
          omega

namespace MultiResponseParser

theorem processLine_toolCalls (l : List Char) (b : Bool) (st : ParseState) :
    (processLine l b st).toolCalls = st.toolCalls ++ (lineToolCall l).toList := by
  rcases h : classifyLine l with _ | tr | ⟨tc, tr⟩ | ⟨ac, tr⟩
  · simp only [processLine, lineToolCall, h]
    split <;> simp
  · rcases he : emitDirective st taskCompletedDescription tr b with ⟨cont, flag⟩
    simp [processLine, lineToolCall, h, he]
  · rcases he : emitDirective st (toolDescription tc) tr b with ⟨cont, flag⟩
    simp [processLine, lineToolCall, h, he]
  · rcases he : emitDirective st (agentDescription ac) tr b with ⟨cont, flag⟩
    simp [processLine, lineToolCall, h, he]

theorem processLine_agentCalls (l : List Char) (b : Bool) (st : ParseState) :
    (processLine l b st).agentCalls = st.agentCalls ++ (lineAgentCall l).toList := by
  rcases h : classifyLine l with _ | tr | ⟨tc, tr⟩ | ⟨ac, tr⟩
  · simp only [processLine, lineAgentCall, h]
    split <;> simp
  · rcases he : emitDirective st taskCompletedDescription tr b with ⟨cont, flag⟩
    simp [processLine, lineAgentCall, h, he]
  · rcases he : emitDirective st (toolDescription tc) tr b with ⟨cont, flag⟩
    simp [processLine, lineAgentCall, h, he]
  · rcases he : emitDirective st (agentDescription ac) tr b with ⟨cont, flag⟩
    simp [processLine, lineAgentCall, h, he]

theorem processLine_done (l : List Char) (b : Bool) (st : ParseState) :
    (processLine l b st).done = (st.done || isDoneLine l) := by
  rcases h : classifyLine l with _ | tr | ⟨tc, tr⟩ | ⟨ac, tr⟩
  · simp only [processLine, isDoneLine, h]
    split <;> simp
  · rcases he : emitDirective st taskCompletedDescription tr b with ⟨cont, flag⟩
    simp [processLine, isDoneLine, h, he]
  · rcases he : emitDirective st (toolDescription tc) tr b with ⟨cont, flag⟩
    simp [processLine, isDoneLine, h, he]
  · rcases he : emitDirective st (agentDescription ac) tr b with ⟨cont, flag⟩
    simp [processLine, isDoneLine, h, he]

theorem processLines_spec :
    ∀ (L : List (List Char)) (st : ParseState),
      (processLines L st).toolCalls = st.toolCalls ++ L.filterMap lineToolCall ∧
      (processLines L st).agentCalls = st.agentCalls ++ L.filterMap lineAgentCall ∧
      (processLines L st).done = (st.done || L.any isDoneLine) := by
  intro L
  induction L with
  | nil => intro st; simp [processLines]
  | cons l ls ih =>
    intro st
    cases ls with
    | nil =>
      simp only [processLines, List.filterMap_cons, List.any_cons, List.any_nil,
        List.filterMap_nil, Bool.or_false]
      refine ⟨?_, ?_, ?_⟩
      · rw [processLine_toolCalls]
        rcases lineToolCall l <;> simp
      · rw [processLine_agentCalls]
        rcases lineAgentCall l <;> simp
      · rw [processLine_done]
    | cons l2 ls2 =>
      simp only [processLines]
      obtain ⟨i1, i2, i3⟩ := ih (processLine l false st)
      refine ⟨?_, ?_, ?_⟩
      · rw [i1, processLine_toolCalls]
        simp only [List.filterMap_cons]
        rcases h : lineToolCall l with _ | tc <;> simp [h]
      · rw [i2, processLine_agentCalls]
        simp only [List.filterMap_cons]
        rcases h : lineAgentCall l with _ | ac <;> simp [h]
      · rw [i3, processLine_done, List.any_cons, Bool.or_assoc]
        simp [List.any_cons]

end MultiResponseParser

/-- Claim C1: for every raw response, the multi-directive parser yields exactly the
well-formed `TOOL:` directives as `toolCalls` and exactly the well-formed
`AGENT:` directives as `agentCalls`, each in source (line) order, and the
done flag is set iff a done sentinel line occurs, co-occurring directives
still being reported; on a concrete response with two tool directives and
one agent directive interleaved with prose, exactly those calls result, in
source order. -/
theorem claim_C1 (rawResponse : List Char) :
    (MultiResponseParser.parse rawResponse).toolCalls
        = (splitLines rawResponse).filterMap MultiResponseParser.lineToolCall ∧
      (MultiResponseParser.parse rawResponse).agentCalls
        = (splitLines rawResponse).filterMap MultiResponseParser.lineAgentCall ∧
      (MultiResponseParser.parse rawResponse).done
        = (splitLines rawResponse).any MultiResponseParser.isDoneLine ∧
      (MultiResponseParser.parse
          ("Checking the files.\nTOOL:id-1:filesystem.listFiles(\".\")\n\nAsking security.\nAGENT:id-2:security-agent(\"Please analyze the files\")\n\nRunning a command.\nTOOL:id-3:bash.execute(\"echo Hello World\")\n\nAll done!".toList)).toolCalls
        = [⟨"filesystem".toList, "id-1".toList, "listFiles".toList, ["\".\"".toList]⟩,
           ⟨"bash".toList, "id-3".toList, "execute".toList,
             ["\"echo Hello World\"".toList]⟩] ∧
      (MultiResponseParser.parse
          ("Checking the files.\nTOOL:id-1:filesystem.listFiles(\".\")\n\nAsking security.\nAGENT:id-2:security-agent(\"Please analyze the files\")\n\nRunning a command.\nTOOL:id-3:bash.execute(\"echo Hello World\")\n\nAll done!".toList)).agentCalls
        = [⟨"security-agent".toList, "id-2".toList,
            "Please analyze the files".toList⟩] := by
  obtain ⟨h1, h2, h3⟩ := MultiResponseParser.processLines_spec
    (splitLines rawResponse) MultiResponseParser.initState
  refine ⟨?_, ?_, ?_, ?_, ?_⟩
  · simpa [MultiResponseParser.parse, MultiResponseParser.initState] using h1
  · simpa [MultiResponseParser.parse, MultiResponseParser.initState] using h2
  · simpa [MultiResponseParser.parse, MultiResponseParser.initState] using h3
  · decide
  · decide

theorem splitLines_first_prefix :
    ∀ (cs l : List Char) (ls : List (List Char)),
      splitLines cs = l :: ls → ∃ rest, cs = l ++ rest := by
  intro cs
  induction cs with
  | nil =>
    intro l ls h
    simp only [splitLines, List.cons.injEq] at h
    exact ⟨[], by simp [← h.1]⟩
  | cons c cs ih =>
    intro l ls h
    simp only [splitLines] at h
    split at h
    · rename_i hc
      subst hc
      obtain ⟨h1, h2⟩ := List.cons.injEq .. ▸ h
      exact ⟨'\n' :: cs, by simp [← h1]⟩
    · rename_i hc
      rcases hs : splitLines cs with _ | ⟨h0, t0⟩
      · exact absurd hs (splitLines_ne_nil cs)
      · rw [hs] at h
        obtain ⟨h1, h2⟩ := List.cons.injEq .. ▸ h
        obtain ⟨rest, hrest⟩ := ih h0 t0 hs
        exact ⟨rest, by simp [← h1, hrest]⟩

theorem splitLines_mem_substring :
    ∀ (cs l : List Char), l ∈ splitLines cs → ∃ pre post, cs = pre ++ l ++ post := by
  intro cs
  induction cs with
  | nil =>
    intro l h
    simp only [splitLines, List.mem_singleton] at h
    exact ⟨[], [], by simp [h]⟩
  | cons c cs ih =>
    intro l h
    simp only [splitLines] at h
    split at h
    · rename_i hc
      subst hc
      rcases List.mem_cons.mp h with h1 | h1
      · exact ⟨[], '\n' :: cs, by simp [h1]⟩
      · obtain ⟨pre, post, hpp⟩ := ih l h1
        exact ⟨'\n' :: pre, post, by simp [hpp]⟩
    · rename_i hc
      rcases hs : splitLines cs with _ | ⟨h0, t0⟩
      · exact absurd hs (splitLines_ne_nil cs)
      · rw [hs] at h
        rcases List.mem_cons.mp h with h1 | h1
        · obtain ⟨rest, hrest⟩ := splitLines_first_prefix cs h0 t0 hs
          exact ⟨[], rest, by simp [h1, hrest]⟩
        · obtain ⟨pre, post, hpp⟩ := ih l (hs ▸ List.mem_cons_of_mem h0 h1)
          exact ⟨c :: pre, post, by simp [hpp]⟩

namespace MultiResponseParser

theorem classifyLine_prose (l : List Char)
    (h1 : startsWithChars ("TOOL:".toList) l = false)
    (h2 : startsWithChars ("AGENT:".toList) l = false) :
    classifyLine l = .prose := by
  have e1 : ("TOOL:".toList) = ['T', 'O', 'O', 'L', ':'] := rfl
  have e2 : ("AGENT:".toList) = ['A', 'G', 'E', 'N', 'T', ':'] := rfl
  rw [e1] at h1
  rw [e2] at h2
  simp [classifyLine, h1, h2]

theorem processLines_prose :
    ∀ (L : List (List Char)) (st : ParseState),
      (∀ l ∈ L, classifyLine l = .prose) → st.skipBlank = false →
      (processLines L st).content = st.content ++ joinLines L ∧
      (processLines L st).toolCalls = st.toolCalls ∧
      (processLines L st).agentCalls = st.agentCalls ∧
      (processLines L st).done = st.done := by
  intro L
  induction L with
  | nil => intro st _ _; simp [processLines, joinLines]
  | cons l ls ih =>
    intro st hall hsb
    have hl : classifyLine l = .prose := hall l (List.mem_cons_self l ls)
    cases ls with
    | nil =>
      have hstep : processLine l true st =
          { st with content := st.content ++ l, skipBlank := false } := by
        simp [processLine, hl, hsb]
      simp [processLines, hstep, joinLines]
    | cons l2 ls2 =>
      have hstep : processLine l false st =
          { st with content := st.content ++ l ++ ['\n'], skipBlank := false } := by
        simp [processLine, hl, hsb]
      simp only [processLines, hstep]
      obtain ⟨i1, i2, i3, i4⟩ := ih
        { st with content := st.content ++ l ++ ['\n'], skipBlank := false }
        (fun x hx => hall x (List.mem_cons_of_mem l hx)) rfl
      rw [i1, i2, i3, i4]
      simp [joinLines]

end MultiResponseParser

/-- Claim C2: a raw response containing no occurrence of `TOOL:` or `AGENT:`
anywhere parses to itself: content equal to the input character for
character, no tool calls, no agent calls, and done false. -/
theorem claim_C2 (rawResponse : List Char)
    (h1 : containsSub ("TOOL:".toList) rawResponse = false)
    (h2 : containsSub ("AGENT:".toList) rawResponse = false) :
    (MultiResponseParser.parse rawResponse).content = rawResponse ∧
      (MultiResponseParser.parse rawResponse).toolCalls = [] ∧
      (MultiResponseParser.parse rawResponse).agentCalls = [] ∧
      (MultiResponseParser.parse rawResponse).done = false := by
  have hall : ∀ l ∈ splitLines rawResponse, MultiResponseParser.classifyLine l =
      .prose := by
    intro l hl
    apply MultiResponseParser.classifyLine_prose
    · by_contra hsw
      rw [Bool.not_eq_false] at hsw
      obtain ⟨t, rfl⟩ := (startsWithChars_iff _ _).mp hsw
      obtain ⟨pre, post, hpp⟩ := splitLines_mem_substring rawResponse _ hl
      have : containsSub ("TOOL:".toList) rawResponse = true :=
        (containsSub_iff _ _).mpr ⟨pre, t ++ post, by simp [hpp]⟩
      rw [this] at h1
      cases h1
    · by_contra hsw
      rw [Bool.not_eq_false] at hsw
      obtain ⟨t, rfl⟩ := (startsWithChars_iff _ _).mp hsw
      obtain ⟨pre, post, hpp⟩ := splitLines_mem_substring rawResponse _ hl
      have : containsSub ("AGENT:".toList) rawResponse = true :=
        (containsSub_iff _ _).mpr ⟨pre, t ++ post, by simp [hpp]⟩
      rw [this] at h2
      cases h2
  obtain ⟨c1, c2, c3, c4⟩ := MultiResponseParser.processLines_prose
    (splitLines rawResponse) MultiResponseParser.initState hall rfl
  refine ⟨?_, ?_, ?_, ?_⟩
  · simp only [MultiResponseParser.parse]
    rw [c1]
    simp [MultiResponseParser.initState, joinLines_splitLines]
  · simp only [MultiResponseParser.parse]
    rw [c2]
    rfl
  · simp only [MultiResponseParser.parse]
    rw [c3]
    rfl
  · simp only [MultiResponseParser.parse]
    rw [c4]
    rfl

/-- Witness for C2 at a concrete directive-free response. -/
theorem claim_C2_witness :
    (containsSub ("TOOL:".toList) ("hello world\nsecond line".toList) = false ∧
      containsSub ("AGENT:".toList) ("hello world\nsecond line".toList) = false) ∧
    (MultiResponseParser.parse ("hello world\nsecond line".toList)).content
        = "hello world\nsecond line".toList ∧
      (MultiResponseParser.parse ("hello world\nsecond line".toList)).toolCalls = [] ∧
      (MultiResponseParser.parse ("hello world\nsecond line".toList)).agentCalls = [] ∧
      (MultiResponseParser.parse ("hello world\nsecond line".toList)).done = false :=
  ⟨⟨by decide, by decide⟩, claim_C2 _ (by decide) (by decide)⟩

theorem splitLines_cons_nl (cs : List Char) :
    splitLines ('\n' :: cs) = [] :: splitLines cs := by
  simp [splitLines]

theorem splitLines_cons_of_ne (c : Char) (cs : List Char) (h : ¬ c = '\n')
    (x : List Char) (xs : List (List Char)) (hs : splitLines cs = x :: xs) :
    splitLines (c :: cs) = (c :: x) :: xs := by
  rw [splitLines.eq_def]
  simp [h, hs]

theorem splitLines_length_ge_two (s : List Char) (h : s.getLast? = some '\n') :
    2 ≤ (splitLines s).length := by
  induction s with
  | nil => cases h
  | cons c s' ih =>
    cases s' with
    | nil =>
      simp only [List.getLast?_singleton, Option.some.injEq] at h
      subst h
      decide
    | cons d s2 =>
      rw [List.getLast?_cons_cons] at h
      have h2 := ih h
      by_cases hc : c = '\n'
      · subst hc
        rw [splitLines_cons_nl]
        simp only [List.length_cons]
        omega
      · rcases hs : splitLines (d :: s2) with _ | ⟨x, xs⟩
        · exact absurd hs (splitLines_ne_nil _)
        · rw [splitLines_cons_of_ne c _ hc x xs hs]
          rw [hs] at h2
          simpa using h2

theorem splitLines_append_of_ends_nl :
    ∀ (s t : List Char), (s = [] ∨ s.getLast? = some '\n') →
      splitLines (s ++ t) = (splitLines s).dropLast ++ splitLines t := by
  intro s
  induction s with
  | nil => intro t _; simp [splitLines]
  | cons c s' ih =>
    intro t h
    rcases h with h | h
    · cases h
    cases s' with
    | nil =>
      simp only [List.getLast?_singleton, Option.some.injEq] at h
      subst h
      rw [List.cons_append, List.nil_append, splitLines_cons_nl]
      have e : splitLines ['\n'] = [[], []] := by decide
      rw [e]
      simp
    | cons d s2 =>
      rw [List.getLast?_cons_cons] at h
      have ihs := ih t (Or.inr h)
      have hlen := splitLines_length_ge_two (d :: s2) h
      rcases hs : splitLines (d :: s2) with _ | ⟨x, xs⟩
      · exact absurd hs (splitLines_ne_nil _)
      rcases xs with _ | ⟨y, ys⟩
      · rw [hs] at hlen
        simp at hlen
      simp only [List.cons_append] at ihs ⊢
      have hsplit1 : splitLines (d :: (s2 ++ t)) =
          x :: (List.dropLast (y :: ys) ++ splitLines t) := by
        rw [ihs, hs, List.dropLast_cons₂]
        simp
      by_cases hc : c = '\n'
      · subst hc
        rw [splitLines_cons_nl, splitLines_cons_nl, ihs, hs, List.dropLast_cons₂]
        simp
      · rw [splitLines_cons_of_ne c _ hc _ _ hsplit1,
          splitLines_cons_of_ne c _ hc x (y :: ys) hs, List.dropLast_cons₂]
        simp

namespace MultiResponseParser

theorem processLines_cons_of_ne_nil (l : List Char) (ls : List (List Char))
    (st : ParseState) (h : ls ≠ []) :
    processLines (l :: ls) st = processLines ls (processLine l false st) := by
  cases ls with
  | nil => exact absurd rfl h
  | cons l2 ls2 => rfl

theorem processLines_done_last :
    ∀ (L : List (List Char)) (st : ParseState),
      (processLines (L ++ ["TOOL:done".toList]) st).done = true ∧
      (processLines (L ++ ["TOOL:done".toList]) st).content =
        ensureBlankLine ((processLines (L ++ [[]]) st).content) ++
          taskCompletedDescription := by
  intro L
  induction L with
  | nil =>
    intro st
    have hcl : classifyLine ("TOOL:done".toList) = .doneSig [] := by decide
    have hcl2 : classifyLine ([] : List Char) = .prose := by decide
    have hstep1 : processLine ("TOOL:done".toList) true st =
        { st with content := ensureBlankLine st.content ++ taskCompletedDescription,
                  done := true, skipBlank := false } := by
      simp only [processLine]
      rw [hcl]
      simp [emitDirective]
    have hstep2 : processLine ([] : List Char) true st =
        { st with content := st.content, skipBlank := false } := by
      simp only [processLine]
      rw [hcl2]
      simp
    simp only [List.nil_append]
    rw [show processLines ["TOOL:done".toList] st
        = processLine ("TOOL:done".toList) true st from rfl]
    rw [show processLines [[]] st = processLine ([] : List Char) true st from rfl]
    rw [hstep1, hstep2]
    exact ⟨rfl, rfl⟩
  | cons l L' ih =>
    intro st
    rw [List.cons_append, processLines_cons_of_ne_nil l _ st (by simp),
      List.cons_append, processLines_cons_of_ne_nil l _ st (by simp)]
    exact ih (processLine l false st)

end MultiResponseParser

/-- Claim C4: a raw response ending in a `TOOL:done` sentinel line parses with
`done = true`, and its content is the content of the preceding part followed
by `[Task completed]` after blank-line normalization (`ensureBlankLine`:
content already ending in two newlines is left alone, a single trailing
newline receives one more, otherwise two newlines are appended). -/
theorem claim_C4 (s : List Char) (h : s = [] ∨ s.getLast? = some '\n') :
    (MultiResponseParser.parse (s ++ "TOOL:done".toList)).done = true ∧
      (MultiResponseParser.parse (s ++ "TOOL:done".toList)).content =
        MultiResponseParser.ensureBlankLine ((MultiResponseParser.parse s).content) ++
          MultiResponseParser.taskCompletedDescription := by
  have hsplit := splitLines_append_of_ends_nl s ("TOOL:done".toList) h
  have hdone : splitLines ("TOOL:done".toList) = ["TOOL:done".toList] := by decide
  rw [hdone] at hsplit
  have hs2 : splitLines s = (splitLines s).dropLast ++ [[]] := by
    have h0 := splitLines_append_of_ends_nl s [] h
    simpa [splitLines] using h0
  obtain ⟨d1, d2⟩ := MultiResponseParser.processLines_done_last
    (splitLines s).dropLast MultiResponseParser.initState
  constructor
  · simp only [MultiResponseParser.parse, hsplit]
    exact d1
  · simp only [MultiResponseParser.parse, hsplit]
    rw [d2]
    congr 2
    rw [← hs2]

/-- Witness for C4 at the done-signal fixture of the parser test suite. -/
theorem claim_C4_witness :
    (("Here is the final answer.\n\n".toList : List Char) = [] ∨
      ("Here is the final answer.\n\n".toList).getLast? = some '\n') ∧
    (MultiResponseParser.parse ("Here is the final answer.\n\n".toList ++
        "TOOL:done".toList)).done = true ∧
      (MultiResponseParser.parse ("Here is the final answer.\n\n".toList ++
          "TOOL:done".toList)).content =
        MultiResponseParser.ensureBlankLine
            ((MultiResponseParser.parse ("Here is the final answer.\n\n".toList)).content) ++
          MultiResponseParser.taskCompletedDescription :=
  ⟨by decide, claim_C4 _ (by decide)⟩

/-- Claim C3: the directive `TOOL:id-1:calc.add(5, 10, 15)` parses to the single
tool call with tool id `calc`, correlation id `id-1`, function name `add`,
and raw arguments `5`, `10`, `15` kept as unevaluated literal substrings. -/
theorem claim_C3 :
    (MultiResponseParser.parse ("TOOL:id-1:calc.add(5, 10, 15)".toList)).toolCalls =
        [⟨"calc".toList, "id-1".toList, "add".toList,
          ["5".toList, "10".toList, "15".toList]⟩] ∧
      (MultiResponseParser.parse ("TOOL:id-1:calc.add(5, 10, 15)".toList)).agentCalls = [] ∧
      (MultiResponseParser.parse ("TOOL:id-1:calc.add(5, 10, 15)".toList)).done = false := by
  decide

theorem parseArguments_args_infix (fuel : Nat) (s : Scanner)
    (args : List (List Char)) (s1 : Scanner) (closed : Bool)
    (h : parseArguments fuel s = some (args, s1, closed)) :
    ∀ a ∈ args, ∃ pre post, s.input = pre ++ a ++ post := by
  simp only [parseArguments] at h
  split at h
  · simp only [Option.some.injEq, Prod.mk.injEq] at h
    obtain ⟨rfl, _, _⟩ := h
    simp
  · obtain ⟨_, _, _, _, i5⟩ := parseArgsLoop_spec fuel _ _ _ _ _ _ _ h
    intro a ha
    rcases i5 a ha with hmem | ⟨pre, post, hpp⟩
    · simp at hmem
    · rw [Scanner.skipWhitespace_input, Scanner.matchChar_input,
        Scanner.skipWhitespace_input] at hpp
      exact ⟨pre, post, hpp⟩

/-- Claim C5 counterexample: the directive `TOOL::calc.add(1)` has identifier
segment `:calc`, which splits on the colon into two parts with the first
empty; the claim requires correlation id `default` and name `:calc`, but the
code takes the empty first part as the correlation id and `calc` as the
name (the source checks only the split count, not non-emptiness). -/
theorem claim_C5_counterexample :
    extractCorrelation (":calc".toList) = ([], "calc".toList) ∧
      ¬ extractCorrelation (":calc".toList) = ("default".toList, ":calc".toList) ∧
      (ResponseParser.parse ("TOOL::calc.add(1)".toList)).map
          (fun m => m.function_call.map (fun f => (f.correlationId, f.tool)))
        = some (some ([], "calc".toList)) := by
  refine ⟨by decide, by decide, by decide⟩

/-- Claim C5 (amended): for every directive, the identifier segment is read up to
the first of open parenthesis, space, dot, or newline; if splitting that
segment on the colon yields exactly two parts — empty parts included — the
first part is the correlation id and the second the name; any other split
count leaves the whole segment as the name with correlation id `default`. -/
theorem claim_C5 (s : Scanner) (ident p0 p1 : List Char) :
    ((Scanner.nextUntil s ['(', ' ', '.', '\n']).1 =
        (s.input.drop s.position).takeWhile
          (fun c => !(['(', ' ', '.', '\n'].contains c))) ∧
      (ident.splitOn ':' = [p0, p1] → extractCorrelation ident = (p0, p1)) ∧
      ((ident.splitOn ':').length ≠ 2 →
        extractCorrelation ident = ("default".toList, ident)) := by
  refine ⟨?_, ?_, ?_⟩
  · simp [Scanner.nextUntil, Scanner.nextUntilGo_fst]
  · intro h
    simp [extractCorrelation, h]
  · intro h
    rcases hs : ident.splitOn ':' with _ | ⟨a, b⟩
    · simp [extractCorrelation, hs]
    · rcases b with _ | ⟨c, d⟩
      · simp [extractCorrelation, hs]
      · rcases d with _ | ⟨e, f⟩
        · rw [hs] at h
          simp at h
        · simp [extractCorrelation, hs]

/-- Witness for the amended C5 at the identifier `id-1:calc`. -/
theorem claim_C5_witness :
    ("id-1:calc".toList.splitOn ':' = ["id-1".toList, "calc".toList]) ∧
      extractCorrelation ("id-1:calc".toList) = ("id-1".toList, "calc".toList) :=
  ⟨by decide,
    (claim_C5 ⟨[], 0⟩ ("id-1:calc".toList) ("id-1".toList) ("calc".toList)).2.1 (by decide)⟩

/-- Claim C6: the three quote kinds are tokenized by one and the same scanning
discipline; every raw argument returned by the tokenizer is an exact
contiguous substring of the input (round-trip lossless, escape backslashes
preserved verbatim); and the escaped-quotes fixture yields the single raw
argument with its backslashes included. -/
theorem claim_C6 :
    (∀ (n : Nat) (s : Scanner),
        scanDoubleQuote n s = scanQuoteGeneric '"' n s ∧
          scanBacktick n s = scanQuoteGeneric backtickChar n s ∧
          scanSingleQuote n s = scanQuoteGeneric singleQuoteChar n s) ∧
      (∀ (fuel : Nat) (s : Scanner) (args : List (List Char)) (s1 : Scanner)
          (closed : Bool),
        parseArguments fuel s = some (args, s1, closed) →
        ∀ a ∈ args, ∃ pre post, s.input = pre ++ a ++ post) ∧
      (MultiResponseParser.parse
          ("TOOL:id:web.search(\"\\\"escaped quotes\\\"\")".toList)).toolCalls =
        [⟨"web".toList, "id".toList, "search".toList,
          ["\"\\\"escaped quotes\\\"\"".toList]⟩] := by
  refine ⟨?_, ?_, ?_⟩
  · intro n s
    exact ⟨scanDoubleQuote_eq_generic n s, scanBacktick_eq_generic n s,
      scanSingleQuote_eq_generic n s⟩
  · exact parseArguments_args_infix
  · decide

/-- Witness for C6 on a small argument list. -/
theorem claim_C6_witness :
    (parseArguments 6 ⟨"(5)".toList, 0⟩
        = some (["5".toList], ⟨"(5)".toList, 2⟩, true)) ∧
      ("5".toList ∈ ["5".toList]) ∧
      (∃ pre post, "(5)".toList = pre ++ "5".toList ++ post) :=
  ⟨by decide, by decide,
    claim_C6.2.1 6 ⟨"(5)".toList, 0⟩ ["5".toList] ⟨"(5)".toList, 2⟩ true
      (by decide) ("5".toList) (by decide)⟩

/-- Claim C7: whenever the argument loop exits through the end-of-input branch
(the logged unterminated-argument-list condition, recorded as
`closed = false`), the returned argument sequence is empty; and with
sufficient fuel the tokenizer always returns a value, so one malformed
directive cannot abort parsing of the rest of the response. -/
theorem claim_C7 :
    (∀ (fuel : Nat) (s : Scanner) (args : List (List Char)) (s1 : Scanner),
        parseArguments fuel s = some (args, s1, false) → args = []) ∧
      (∀ s : Scanner, (parseArguments (s.input.length + 1) s).isSome = true) := by
  constructor
  · intro fuel s args s1 h
    simp only [parseArguments] at h
    split at h
    · simp at h
    · obtain ⟨_, _, _, i4, _⟩ := parseArgsLoop_spec fuel _ _ _ _ _ _ _ h
      exact i4 rfl
  · intro s
    apply parseArguments_isSome
    omega

/-- Witness for C7 at an unterminated argument list. -/
theorem claim_C7_witness :
    (parseArguments 10 ⟨"(\"abc".toList, 0⟩
        = some ([], ⟨"(\"abc".toList, 5⟩, false)) ∧
      ([] : List (List Char)) = [] :=
  ⟨by decide,
    claim_C7.1 10 ⟨"(\"abc".toList, 0⟩ [] ⟨"(\"abc".toList, 5⟩ (by decide)⟩

/-- Claim C10: the single-call parser always returns a message (its scanning loops
terminate because every iteration strictly advances the cursor or exits),
and the cursor of every scanning primitive stays within the input: the
`nextUntil` and `skipWhitespace` primitives keep the position at most the
input length, the argument loop completes with any fuel exceeding the
remaining input, and the scanner returned by `parseArguments` is in
bounds (so in particular the cursor never passes the end of the input by
more than one position). -/
theorem claim_C10 (input : List Char) :
    ((ResponseParser.parse input).isSome = true) ∧
      (∀ (s : Scanner) (delimiters : List Char), s.position ≤ s.input.length →
        s.position ≤ (Scanner.nextUntil s delimiters).2.position ∧
          (Scanner.nextUntil s delimiters).2.position ≤ s.input.length) ∧
      (∀ s : Scanner, s.position ≤ s.input.length →
        s.position ≤ (Scanner.skipWhitespace s).position ∧
          (Scanner.skipWhitespace s).position ≤ s.input.length) ∧
      (∀ (fuel : Nat) (acc : List (List Char)) (argStart depth : Nat) (s : Scanner),
        s.input.length - s.position < fuel →
        (parseArgsLoop acc argStart depth fuel s).isSome = true) ∧
      (∀ (fuel : Nat) (s : Scanner) (args : List (List Char)) (s1 : Scanner)
          (closed : Bool),
        parseArguments fuel s = some (args, s1, closed) →
        s.position ≤ s.input.length → s1.position ≤ s.input.length) := by
  refine ⟨?_, ?_, ?_, ?_, ?_⟩
  · apply ResponseParser.parseLoop_isSome
    simp
  · intro s d h
    exact ⟨Scanner.nextUntil_le s d, Scanner.nextUntil_le_length s d h⟩
  · intro s h
    exact ⟨Scanner.skipWhitespace_le s, Scanner.skipWhitespace_le_length s h⟩
  · intro fuel acc argStart depth s h
    exact parseArgsLoop_isSome fuel acc argStart depth s h
  · intro fuel s args s1 closed h hb
    exact (parseArguments_bound fuel s args s1 closed h hb).2

/-- Witness for C10 at concrete scanner states. -/
theorem claim_C10_witness :
    (ResponseParser.parse ("x TOOL:done".toList)).isSome = true ∧
      ((1 : Nat) ≤ (Scanner.mk ("ab".toList) 1).input.length ∧
        (1 ≤ (Scanner.nextUntil ⟨"ab".toList, 1⟩ ['b']).2.position ∧
          (Scanner.nextUntil ⟨"ab".toList, 1⟩ ['b']).2.position ≤
            (Scanner.mk ("ab".toList) 1).input.length)) :=
  ⟨(claim_C10 ("x TOOL:done".toList)).1,
    by decide,
    (claim_C10 []).2.1 ⟨"ab".toList, 1⟩ ['b'] (by decide)⟩

theorem schedulePrompt_inl (sch : PromptScheduler) (a : Agent) (prompt : Prompt)
    (corrId : Option String) (srcOpt : Option Agent) :
    schedulePrompt sch (Sum.inl a) prompt corrId srcOpt =
      { sch with promptQueue := sch.promptQueue ++ [⟨a, prompt, srcOpt, corrId⟩] } := by
  simp [schedulePrompt, pushPrompt]

theorem processQueue_fifo :
    ∀ (q : List PromptQueueItem) (handler : PromptQueueItem → HandlerOutcome)
      (fuel : Nat) (ext : List PromptQueueItem) (reg : List (String × Agent)),
      q.length ≤ fuel →
      ∃ t, (processQueue handler fuel ⟨q ++ ext, reg⟩).1 = q ++ t := by
  intro q
  induction q with
  | nil =>
    intro handler fuel ext reg _
    exact ⟨(processQueue handler fuel ⟨ext, reg⟩).1, by simp⟩
  | cons i q' ih =>
    intro handler fuel ext reg h
    cases fuel with
    | zero => simp at h
    | succ n =>
      simp only [List.cons_append, processQueue]
      rcases hh : handler i with newItems | msg
      · obtain ⟨t, ht⟩ := ih handler n (ext ++ newItems) reg (Nat.le_of_succ_le_succ h)
        exact ⟨t, by simp [ht]⟩
      · obtain ⟨t, ht⟩ := ih handler n
          (ext ++ [⟨i.agent, Prompt.text ("Error processing prompt: " ++ msg),
            i.sourceAgent, i.correlationId⟩]) reg (Nat.le_of_succ_le_succ h)
        refine ⟨t, ?_⟩
        simp only [schedulePrompt_inl]
        simp [ht]

/-- Claim C8: the scheduler drains its queue in strict FIFO order — on any starting
queue, the dispatch order begins with exactly that queue in order, items
enqueued during the drain following after — and a handler error is not
propagated: the step re-enqueues exactly one error-report prompt at the
tail, addressed to the same agent with the same correlation id and the same
source agent. -/
theorem claim_C8 :
    (∀ (handler : PromptQueueItem → HandlerOutcome) (fuel : Nat)
        (q ext : List PromptQueueItem) (reg : List (String × Agent)),
        q.length ≤ fuel →
        ∃ t, (processQueue handler fuel ⟨q ++ ext, reg⟩).1 = q ++ t) ∧
      (∀ (reg : List (String × Agent)) (rest : List PromptQueueItem)
          (item : PromptQueueItem) (msg : String),
        (schedulePrompt ⟨rest, reg⟩ (Sum.inl item.agent)
            (Prompt.text ("Error processing prompt: " ++ msg))
            item.correlationId item.sourceAgent).promptQueue =
          rest ++ [⟨item.agent, Prompt.text ("Error processing prompt: " ++ msg),
            item.sourceAgent, item.correlationId⟩]) := by
  constructor
  · intro handler fuel q ext reg h
    exact processQueue_fifo q handler fuel ext reg h
  · intro reg rest item msg
    rw [schedulePrompt_inl]

/-- Witness for C8 on a one-item queue with a succeeding handler. -/
theorem claim_C8_witness :
    (([⟨⟨"a"⟩, Prompt.text "hi", none, none⟩] : List PromptQueueItem).length ≤ 2) ∧
      (∃ t, (processQueue (fun _ => HandlerOutcome.ok []) 2
          ⟨([⟨⟨"a"⟩, Prompt.text "hi", none, none⟩] : List PromptQueueItem) ++ [], []⟩).1
        = ([⟨⟨"a"⟩, Prompt.text "hi", none, none⟩] : List PromptQueueItem) ++ t) :=
  ⟨by decide,
    claim_C8.1 (fun _ => HandlerOutcome.ok []) 2
      [⟨⟨"a"⟩, Prompt.text "hi", none, none⟩] [] [] (by decide)⟩

/-- Claim C9: `schedulePrompt` with an unregistered name and a supplied source
agent enqueues exactly one item addressed back to the source, carrying the
synthesized failure message with the original correlation id; with no
source agent it enqueues nothing; a registered name or a direct agent
reference enqueues exactly one item at the tail. -/
theorem claim_C9 (reg : List (String × Agent)) (q : List PromptQueueItem)
    (name : String) (prompt : Prompt) (corrId : Option String) (src a : Agent)
    (srcOpt : Option Agent) :
    (reg.lookup name = none →
        (schedulePrompt ⟨q, reg⟩ (Sum.inr name) prompt corrId (some src)).promptQueue =
            q ++ [⟨src, Prompt.text ("Agent not found: " ++ name ++
              ", correlationId: " ++ optStr corrId), none, corrId⟩] ∧
          (schedulePrompt ⟨q, reg⟩ (Sum.inr name) prompt corrId none).promptQueue = q) ∧
      (reg.lookup name = some a →
        (schedulePrompt ⟨q, reg⟩ (Sum.inr name) prompt corrId srcOpt).promptQueue =
          q ++ [⟨a, prompt, srcOpt, corrId⟩]) ∧
      (schedulePrompt ⟨q, reg⟩ (Sum.inl a) prompt corrId srcOpt).promptQueue =
        q ++ [⟨a, prompt, srcOpt, corrId⟩] := by
  refine ⟨?_, ?_, ?_⟩
  · intro h
    constructor
    · simp [schedulePrompt, pushPrompt, h]
    · simp [schedulePrompt, h]
  · intro h
    simp [schedulePrompt, pushPrompt, h]
  · rw [schedulePrompt_inl]

/-- Witness for C9 with a one-entry registry. -/
theorem claim_C9_witness :
    (([("bob", (⟨"bob"⟩ : Agent))] : List (String × Agent)).lookup "alice" = none) ∧
      ((schedulePrompt ⟨[], [("bob", (⟨"bob"⟩ : Agent))]⟩ (Sum.inr "alice")
            (Prompt.text "hi") (some "c1") (some ⟨"bob"⟩)).promptQueue =
          [] ++ [⟨⟨"bob"⟩, Prompt.text ("Agent not found: " ++ "alice" ++
            ", correlationId: " ++ optStr (some "c1")), none, some "c1"⟩] ∧
        (schedulePrompt ⟨[], [("bob", (⟨"bob"⟩ : Agent))]⟩ (Sum.inr "alice")
            (Prompt.text "hi") (some "c1") none).promptQueue = []) :=
  ⟨by decide,
    (claim_C9 [("bob", ⟨"bob"⟩)] [] "alice" (Prompt.text "hi") (some "c1")
      ⟨"bob"⟩ ⟨"bob"⟩ none).1 (by decide)⟩

end Handjie
